import Mathlib

/-!
Shallow embedding of `WCdownloader.py`, a Wikimedia Commons category
crawler and image downloader.  Pure string helpers are translated
directly; network interaction is modelled by explicit oracles (response
streams), and the stateful loops become fuel-indexed step functions.
-/

namespace WC

/-- Characters the code treats as invalid in file names, from the
regular expression in `sanitize_filename`: the class is
the nine characters shown in the pattern. -/
def invalidChar (c : Char) : Bool :=
  c == '<' || c == '>' || c == ':' || c == '"' || c == '/' ||
  c == '\\' || c == '|' || c == '?' || c == '*'

/-- Embedding of `sanitize_filename`: every character of the invalid
class is replaced by an underscore, all other characters are kept. -/
def sanitize_filename (name : String) : String :=
  ⟨name.data.map (fun c => if invalidChar c then '_' else c)⟩

/-- Embedding of Python `str.removeprefix`: drop the leading string `p`
when `s` starts with it, otherwise return `s` unchanged. -/
def removeStart (s p : String) : String :=
  if s.data.take p.data.length = p.data then ⟨s.data.drop p.data.length⟩ else s

/-- Whether the character list `l` ends with `suffix`. -/
def endsWithChars (l suffix : List Char) : Bool :=
  decide (l.drop (l.length - suffix.length) = suffix)

/-- Embedding of `EXTENSIONS.search(title)` for the case-insensitive
pattern of a dot followed by jpg, jpeg or png at the end of the string.
Python `$` also matches just before one trailing newline, hence the
truncation step. -/
def isImageTitle (t : String) : Bool :=
  let l := t.data.map Char.toLower
  let l := if l.getLast? = some '\n' then l.dropLast else l
  endsWithChars l ".jpg".data || endsWithChars l ".jpeg".data ||
    endsWithChars l ".png".data

/-- The downloader's naming pipeline for a title: strip the
`File:` marker, then sanitize the remaining characters. -/
def dlName (title : String) : String :=
  sanitize_filename (removeStart title "File:")

/-- Result of one HTTP attempt of a metadata request: a parsed page
with members and continuation token, a 429 status, or a raised
`requests.RequestException` (connection error, timeout or non-2xx). -/
inductive AttemptResult
  | ok (members : List String) (cont : String)
  | rateLimited
  | netFail
deriving DecidableEq, Repr

/-- Outcome of the retry loop around one metadata request: a parsed
page, or abortion after exhausting the attempts. -/
inductive PageOutcome
  | success (members : List String) (cont : String)
  | aborted
deriving DecidableEq, Repr

/-- Embedding of the `for attempt in range(max_retries)` loop in
`get_category_members`.  `oracle` gives the result of each attempt,
`attempt` is the current index and the last argument the number of
attempts left.  On a 429 the code sleeps `2 ** attempt` seconds and
retries; on an exception it returns the accumulated results when
`attempt == max_retries - 1` and otherwise sleeps `2 ** attempt` and
retries; the `for ... else` branch returns after a final 429.  The
returned list records the backoff sleeps in order. -/
def retryMeta (oracle : Nat → AttemptResult) : Nat → Nat → PageOutcome × List Nat
  | _, 0 => (PageOutcome.aborted, [])
  | attempt, remaining + 1 =>
    match oracle attempt with
    | AttemptResult.ok ms c => (PageOutcome.success ms c, [])
    | AttemptResult.rateLimited =>
      let r := retryMeta oracle (attempt + 1) remaining
      (r.1, 2 ^ attempt :: r.2)
    | AttemptResult.netFail =>
      if remaining = 0 then (PageOutcome.aborted, [])
      else
        let r := retryMeta oracle (attempt + 1) remaining
        (r.1, 2 ^ attempt :: r.2)

/-- Embedding of the pagination loop of `get_category_members`.  The
world maps a page index and an attempt index to that attempt's result;
the category and member type only select which response stream the
server produces, so they are folded into the world.  On an aborted page
the accumulated `results` are returned; on a page with an empty
continuation token the extended results are returned.  `fuel` bounds
the number of pages followed. -/
def getCMAux (world : Nat → Nat → AttemptResult) (maxRetries : Nat) :
    Nat → List String → Nat → List String
  | _, acc, 0 => acc
  | page, acc, fuel + 1 =>
    match (retryMeta (world page) 0 maxRetries).1 with
    | PageOutcome.aborted => acc
    | PageOutcome.success ms c =>
      if c = "" then acc ++ ms else getCMAux world maxRetries (page + 1) (acc ++ ms) fuel

/-- Embedding of `get_category_members(category, cmtype, max_retries)`:
run the pagination loop from page 0 with an empty accumulator. -/
def get_category_members (world : Nat → Nat → AttemptResult) (maxRetries fuel : Nat) :
    List String :=
  getCMAux world maxRetries 0 [] fuel

/-- Result of one HTTP attempt of a file download: a body, a 429
status, or a raised `requests.RequestException`. -/
inductive FetchResult
  | ok (content : String)
  | rateLimited
  | fail
deriving DecidableEq, Repr

/-- Outcome of the per-file retry loop in `download_files`: a saved
body, the error branch of the final exception handler, or falling off
the loop after a 429 on the last attempt (which touches no counter). -/
inductive FileOutcome
  | downloaded (content : String)
  | errored
  | exhausted429
deriving DecidableEq, Repr

/-- Embedding of the `for attempt in range(5)` loop in
`download_files`.  On a 429 the code sleeps `2 ** (attempt + 2)`
seconds and retries; on an exception it increments the error counter
when `attempt == 4` and otherwise sleeps `2 ** attempt` and retries.
When the final attempt is a 429 the loop ends without touching any
counter.  The returned list records the backoff sleeps in order. -/
def retryFile (oracle : Nat → FetchResult) : Nat → Nat → FileOutcome × List Nat
  | _, 0 => (FileOutcome.exhausted429, [])
  | attempt, remaining + 1 =>
    match oracle attempt with
    | FetchResult.ok c => (FileOutcome.downloaded c, [])
    | FetchResult.rateLimited =>
      let r := retryFile oracle (attempt + 1) remaining
      (r.1, 2 ^ (attempt + 2) :: r.2)
    | FetchResult.fail =>
      if remaining = 0 then (FileOutcome.errored, [])
      else
        let r := retryFile oracle (attempt + 1) remaining
        (r.1, 2 ^ attempt :: r.2)

/-- Flat representation of the `files_by_depth` default dictionary: one
entry `(depth, category, title)` per appended file, in insertion order.
The bucket of a depth is the subsequence with that depth; the keys are
the depths that occur. -/
abbrev FilesMap := List (Nat × String × String)

/-- Flat representation of the `categories_by_depth` default
dictionary: one entry per increment, so the count of a depth is its
multiplicity and the keys are the depths that occur. -/
abbrev CatsMap := List Nat

/-- State of the breadth-first loop of `scan_categories`.  `queue` is
the FIFO frontier of `(category, depth)` pairs, `processed` the visited
set, `trace` the processed `(category, depth)` pairs in order (so
`trace.map (fun e => e.2)` is the `categories_by_depth` increments),
`files` the appended file entries.  `subcatCalls` and `fileCalls` log
every call of `get_category_members` with member type subcat and file
respectively, tagged with the depth at which it was made. -/
structure ScanState where
  queue : List (String × Nat)
  processed : List String
  trace : List (String × Nat)
  files : FilesMap
  subcatCalls : List (String × Nat)
  fileCalls : List (String × Nat)
deriving DecidableEq, Repr

/-- Initial scan state: the frontier holds the start category at depth
0 and everything else is empty. -/
def initState (start : String) : ScanState :=
  ⟨[(start, 0)], [], [], [], [], []⟩

/-- Body of one iteration of the `while queue` loop after popping
`(category, depth)` from the front, with `rest` the remaining frontier.
A popped entry already processed or deeper than `max_depth` is dropped.
Otherwise the category is marked processed and counted; when
`depth < max_depth` its subcategories are enumerated and enqueued at
`depth + 1` with the `Category:` marker stripped; its files are always
enumerated, filtered by the image-extension pattern and appended to the
bucket of `depth`. -/
def scanPop (members : String → String → List String) (maxDepth : Int)
    (s : ScanState) (category : String) (depth : Nat)
    (rest : List (String × Nat)) : ScanState :=
  if category ∈ s.processed ∨ (depth : Int) > maxDepth then
    { s with queue := rest }
  else if (depth : Int) < maxDepth then
    { queue := rest ++ (members category "subcat").map
        (fun t => (removeStart t "Category:", depth + 1)),
      processed := category :: s.processed,
      trace := s.trace ++ [(category, depth)],
      files := s.files ++ ((members category "file").filter isImageTitle).map
        (fun t => (depth, category, t)),
      subcatCalls := s.subcatCalls ++ [(category, depth)],
      fileCalls := s.fileCalls ++ [(category, depth)] }
  else
    { queue := rest,
      processed := category :: s.processed,
      trace := s.trace ++ [(category, depth)],
      files := s.files ++ ((members category "file").filter isImageTitle).map
        (fun t => (depth, category, t)),
      subcatCalls := s.subcatCalls,
      fileCalls := s.fileCalls ++ [(category, depth)] }

/-- One iteration of the `while queue` loop of `scan_categories`; on an
empty frontier the state is unchanged.  `members category cmtype`
stands for the member titles that `get_category_members` returns for
that category and member type. -/
def scanStep (members : String → String → List String) (maxDepth : Int)
    (s : ScanState) : ScanState :=
  match s.queue with
  | [] => s
  | (category, depth) :: rest => scanPop members maxDepth s category depth rest

/-- Iterate `scanStep` a given number of times.  An empty frontier is a
fixed point, so any fuel at least the number of loop iterations of the
Python run yields its final state. -/
def scanRun (members : String → String → List String) (maxDepth : Int) :
    Nat → ScanState → ScanState
  | 0, s => s
  | fuel + 1, s => scanRun members maxDepth fuel (scanStep members maxDepth s)

/-- Embedding of `scan_categories(start_category, max_depth)`:
run the loop and return the pair of maps, files by depth and the
category count increments by depth. -/
def scan_categories (members : String → String → List String)
    (start : String) (maxDepth : Int) (fuel : Nat) : FilesMap × CatsMap :=
  let s := scanRun members maxDepth fuel (initState start)
  (s.files, s.trace.map (fun e => e.2))

/-- Ordered bucket of a depth in the flat `files_by_depth`
representation: the `(category, title)` pairs appended at that depth. -/
def bucket (fs : FilesMap) (d : Nat) : List (String × String) :=
  (fs.filter (fun e => decide (e.1 = d))).map (fun e => (e.2.1, e.2.2))

/-- Keys of the `files_by_depth` dictionary. -/
def fileKeys (fs : FilesMap) : List Nat :=
  (fs.map (fun e => e.1)).dedup

/-- Keys of the `categories_by_depth` dictionary. -/
def catKeys (cs : CatsMap) : List Nat :=
  cs.dedup

/-- Count of categories recorded at a depth. -/
def catCount (cs : CatsMap) (d : Nat) : Nat :=
  cs.count d

/-- Embedding of
`max(list(files_by_depth.keys()) + list(categories_by_depth.keys()), default=0)`
in `print_summary`. -/
def summaryMax (fs : FilesMap) (cs : CatsMap) : Nat :=
  (fileKeys fs ++ catKeys cs).foldr max 0

/-- Embedding of the `for depth in range(max_depth + 1)` loop of
`print_summary`: for every depth produce the printed row
`(depth, categories, images, cumulative)` while accumulating the
running `cumulative` and `total_files` variables; the second component
is the final `total_files`. -/
def summaryLoop (fs : FilesMap) (cs : CatsMap) :
    List Nat → Nat → Nat → List (Nat × Nat × Nat × Nat) × Nat
  | [], _, tot => ([], tot)
  | d :: ds, cum, tot =>
    let nf := (bucket fs d).length
    let r := summaryLoop fs cs ds (cum + nf) (tot + nf)
    ((d, catCount cs d, nf, cum + nf) :: r.1, r.2)

/-- Embedding of `print_summary(files_by_depth, categories_by_depth)`:
the rows printed for depths `0 .. max` and the returned
`total_files`. -/
def print_summary (fs : FilesMap) (cs : CatsMap) :
    List (Nat × Nat × Nat × Nat) × Nat :=
  summaryLoop fs cs (List.range (summaryMax fs cs + 1)) 0 0

/-- State of `download_files`: the set of sanitized names present in
the output directory (initial contents plus the files written so far)
and the two counters. -/
structure DlState where
  disk : List String
  downloaded : Nat
  error : Nat
deriving DecidableEq, Repr

/-- Body of the per-file loop of `download_files` for one
`(category, title)` entry.  The resource URL is
`Special:FilePath/` followed by the percent-encoding of the stripped
title, a bijective image of it, so the fetch oracle is keyed by the
stripped title and the attempt index.  An entry whose sanitized name is
already on disk is skipped; otherwise the retry loop runs: a saved body
adds the name to disk and increments `downloaded`, the final-attempt
exception branch increments `error`, and exhaustion by 429 leaves the
state unchanged. -/
def processEntry (oracle : String → Nat → FetchResult) (s : DlState)
    (e : String × String) : DlState :=
  if dlName e.2 ∈ s.disk then s
  else
    match (retryFile (oracle (removeStart e.2 "File:")) 0 5).1 with
    | FileOutcome.downloaded _ =>
      { s with disk := dlName e.2 :: s.disk, downloaded := s.downloaded + 1 }
    | FileOutcome.errored => { s with error := s.error + 1 }
    | FileOutcome.exhausted429 => s

/-- Fold the per-file body over a list of entries, in order. -/
def runEntries (oracle : String → Nat → FetchResult) (s : DlState)
    (es : List (String × String)) : DlState :=
  es.foldl (processEntry oracle) s

/-- Embedding of `range(max_download_depth + 1)` where the bound is the
operator-supplied integer. -/
def dlDepths (maxDl : Int) : List Nat :=
  if maxDl < 0 then [] else List.range (maxDl.toNat + 1)

/-- The entries `download_files` iterates: for each depth up to the
bound, the bucket of that depth in order. -/
def entriesUpTo (files : FilesMap) (maxDl : Int) : List (String × String) :=
  (dlDepths maxDl).flatMap (fun d => bucket files d)

/-- Run of `download_files` exposing the final state. -/
def download_run (oracle : String → Nat → FetchResult) (disk0 : List String)
    (files : FilesMap) (maxDl : Int) : DlState :=
  runEntries oracle ⟨disk0, 0, 0⟩ (entriesUpTo files maxDl)

/-- Embedding of `download_files(files_by_depth, max_download_depth)`
from an initial output-directory contents: the returned pair
`(downloaded_count, error_count)`. -/
def download_files (oracle : String → Nat → FetchResult) (disk0 : List String)
    (files : FilesMap) (maxDl : Int) : Nat × Nat :=
  let s := download_run oracle disk0 files maxDl
  (s.downloaded, s.error)

/-- A small concrete category tree used to instantiate theorems with
hypotheses. -/
def demoMembers : String → String → List String
  | "Root", "subcat" => ["Category:Sub1"]
  | "Root", "file" => ["File:A.jpg", "File:notes.txt"]
  | "Sub1", "file" => ["File:B.png"]
  | _, _ => []

/-- A fetch world where every attempt succeeds. -/
def okWorld : String → Nat → FetchResult := fun _ _ => FetchResult.ok "body"

/-- A fetch world where every attempt raises. -/
def failWorld : String → Nat → FetchResult := fun _ _ => FetchResult.fail

/-- A fetch world where every attempt is rate limited. -/
def rlWorld : String → Nat → FetchResult := fun _ _ => FetchResult.rateLimited

theorem scanStep_nil (m : String → String → List String) (md : Int)
    (s : ScanState) (hq : s.queue = []) : scanStep m md s = s := by
  unfold scanStep
  rw [hq]

theorem scanStep_cons (m : String → String → List String) (md : Int)
    (s : ScanState) (c : String) (d : Nat) (rest : List (String × Nat))
    (hq : s.queue = (c, d) :: rest) :
    scanStep m md s = scanPop m md s c d rest := by
  unfold scanStep
  rw [hq]

theorem scanRun_succ (m : String → String → List String) (md : Int)
    (fuel : Nat) (s : ScanState) :
    scanRun m md (fuel + 1) s = scanRun m md fuel (scanStep m md s) := rfl

theorem scanRun_fix (m : String → String → List String) (md : Int) :
    ∀ (fuel : Nat) (s : ScanState), s.queue = [] → scanRun m md fuel s = s
  | 0, _, _ => rfl
  | fuel + 1, s, h => by
    rw [scanRun_succ, scanStep_nil m md s h, scanRun_fix m md fuel s h]

theorem scanPop_skip (m : String → String → List String) (md : Int)
    (s : ScanState) (c : String) (d : Nat) (rest : List (String × Nat))
    (h : c ∈ s.processed ∨ (d : Int) > md) :
    scanPop m md s c d rest = { s with queue := rest } := by
  unfold scanPop
  rw [if_pos h]

/-- Invariant of the scan loop: the processed trace has pairwise
distinct names, every traced name is in the visited set, and the file
enumeration log coincides with the trace. -/
def scanInv (s : ScanState) : Prop :=
  (s.trace.map (fun e => e.1)).Nodup
  ∧ (∀ n ∈ s.trace.map (fun e => e.1), n ∈ s.processed)
  ∧ s.fileCalls = s.trace

theorem scanInv_init (start : String) : scanInv (initState start) := by
  refine ⟨List.nodup_nil, ?_, rfl⟩
  intro n hn
  simp [initState] at hn

theorem scanInv_pop (m : String → String → List String) (md : Int)
    (s : ScanState) (c : String) (d : Nat) (rest : List (String × Nat))
    (h : scanInv s) : scanInv (scanPop m md s c d rest) := by
  obtain ⟨h1, h2, h3⟩ := h
  unfold scanPop
  split
  · exact ⟨h1, h2, h3⟩
  next hskip =>
    have hcp : c ∉ s.processed := fun hc => hskip (Or.inl hc)
    have hct : c ∉ s.trace.map (fun e => e.1) := fun hc => hcp (h2 c hc)
    have hnodup : ((s.trace ++ [(c, d)]).map (fun e => e.1)).Nodup := by
      rw [List.map_append]
      rw [List.nodup_append]
      exact ⟨h1, List.nodup_singleton c, by
        intro n hn hn'
        simp at hn'
        subst hn'
        exact hct hn⟩
    have hmem : ∀ n ∈ (s.trace ++ [(c, d)]).map (fun e => e.1),
        n ∈ c :: s.processed := by
      intro n hn
      rw [List.map_append, List.mem_append] at hn
      rcases hn with hn | hn
      · exact List.mem_cons_of_mem _ (h2 n hn)
      · simp at hn
        subst hn
        exact List.mem_cons_self _ _
    split
    · exact ⟨hnodup, hmem, by rw [h3]⟩
    · exact ⟨hnodup, hmem, by rw [h3]⟩

theorem scanInv_step (m : String → String → List String) (md : Int)
    (s : ScanState) (h : scanInv s) : scanInv (scanStep m md s) := by
  rcases hq : s.queue with _ | ⟨⟨c, d⟩, rest⟩
  · rw [scanStep_nil m md s hq]
    exact h
  · rw [scanStep_cons m md s c d rest hq]
    exact scanInv_pop m md s c d rest h

theorem scanInv_run (m : String → String → List String) (md : Int) :
    ∀ (fuel : Nat) (s : ScanState), scanInv s → scanInv (scanRun m md fuel s)
  | 0, _, h => h
  | fuel + 1, s, h => scanInv_run m md fuel _ (scanInv_step m md s h)

/-- Depth invariant of the scan loop: every frontier entry is at depth
at most `max_depth + 1` and every subcategory enumeration was made at a
depth strictly below `max_depth`. -/
def depthInv (md : Int) (s : ScanState) : Prop :=
  (∀ e ∈ s.queue, (e.2 : Int) ≤ md + 1)
  ∧ (∀ e ∈ s.subcatCalls, (e.2 : Int) < md)

theorem depthInv_pop (m : String → String → List String) (md : Int)
    (s : ScanState) (c : String) (d : Nat) (rest : List (String × Nat))
    (hq : s.queue = (c, d) :: rest) (h : depthInv md s) :
    depthInv md (scanPop m md s c d rest) := by
  obtain ⟨h1, h2⟩ := h
  have hrest : ∀ e ∈ rest, (e.2 : Int) ≤ md + 1 := by
    intro e he
    exact h1 e (by rw [hq]; exact List.mem_cons_of_mem _ he)
  unfold scanPop
  split
  · exact ⟨hrest, h2⟩
  · split
    next hlt =>
      constructor
      · intro e he
        rw [List.mem_append] at he
        rcases he with he | he
        · exact hrest e he
        · obtain ⟨t, _, rfl⟩ := List.mem_map.1 he
          push_cast
          omega
      · intro e he
        rw [List.mem_append] at he
        rcases he with he | he
        · exact h2 e he
        · simp at he
          subst he
          exact hlt
    · exact ⟨hrest, h2⟩

theorem depthInv_step (m : String → String → List String) (md : Int)
    (s : ScanState) (h : depthInv md s) : depthInv md (scanStep m md s) := by
  rcases hq : s.queue with _ | ⟨⟨c, d⟩, rest⟩
  · rw [scanStep_nil m md s hq]
    exact h
  · rw [scanStep_cons m md s c d rest hq]
    exact depthInv_pop m md s c d rest hq h

theorem depthInv_run (m : String → String → List String) (md : Int) :
    ∀ (fuel : Nat) (s : ScanState), depthInv md s → depthInv md (scanRun m md fuel s)
  | 0, _, h => h
  | fuel + 1, s, h => depthInv_run m md fuel _ (depthInv_step m md s h)

/-- Claim C1, counterexample: with `max_depth = -1` the root category
is popped at depth `0 > max_depth` and the run ends with the frontier
empty, yet its qualifying file `File:A.jpg` is not collected: both
returned maps are empty.  So a popped entry deeper than `max_depth`
does not have its files collected. -/
theorem C1_counterexample :
    demoMembers "Root" "file" = ["File:A.jpg", "File:notes.txt"]
    ∧ isImageTitle "File:A.jpg" = true
    ∧ (scanRun demoMembers (-1) 2 (initState "Root")).queue = []
    ∧ scan_categories demoMembers "Root" (-1) 2 = ([], []) :=
  ⟨rfl, by decide, by decide, by decide⟩

/-- Claim C1, amended: a category entry popped from the frontier whose
depth is strictly greater than `max_depth` is skipped entirely — the
entry is dropped from the frontier and no files are enumerated or
collected, no subcategories expanded and no category counted. -/
theorem C1_amended (m : String → String → List String) (md : Int)
    (s : ScanState) (c : String) (d : Nat) (rest : List (String × Nat))
    (hq : s.queue = (c, d) :: rest) (hd : (d : Int) > md) :
    scanStep m md s = { s with queue := rest } := by
  rw [scanStep_cons m md s c d rest hq, scanPop_skip m md s c d rest (Or.inr hd)]

/-- Witness for the amended claim C1 at a concrete state. -/
theorem C1_witness :
    scanStep demoMembers 0 ⟨[("A", 1)], [], [], [], [], []⟩
      = ⟨[], [], [], [], [], []⟩ :=
  C1_amended demoMembers 0 ⟨[("A", 1)], [], [], [], [], []⟩ "A" 1 [] rfl (by decide)

/-- Claim C5: in every scan run a category name is processed at most
once (the processed trace has pairwise distinct names, so the depth
recorded at first processing is never revised), and the file
enumeration log equals the trace, so no visited category is ever
re-enumerated. -/
theorem C5 (m : String → String → List String) (md : Int) (start : String)
    (fuel : Nat) :
    ((scanRun m md fuel (initState start)).trace.map (fun e => e.1)).Nodup
    ∧ (scanRun m md fuel (initState start)).fileCalls
        = (scanRun m md fuel (initState start)).trace := by
  obtain ⟨h1, _, h3⟩ := scanInv_run m md fuel (initState start) (scanInv_init start)
  exact ⟨h1, h3⟩

/-- Witness for claim C5 at a concrete run. -/
theorem C5_witness :
    ((scanRun demoMembers 1 3 (initState "Root")).trace.map (fun e => e.1)).Nodup
    ∧ (scanRun demoMembers 1 3 (initState "Root")).fileCalls
        = (scanRun demoMembers 1 3 (initState "Root")).trace :=
  C5 demoMembers 1 "Root" 3

/-- Claim C6: for `max_depth ≥ 0`, after any number of steps of any
scan run every frontier entry has depth at most `max_depth + 1`, and
every subcategory enumeration was performed at a depth strictly less
than `max_depth`. -/
theorem C6 (m : String → String → List String) (md : Int) (start : String)
    (k : Nat) (h : 0 ≤ md) :
    ((scanRun m md k (initState start)).queue.all
        (fun e => decide ((e.2 : Int) ≤ md + 1)) = true)
    ∧ ((scanRun m md k (initState start)).subcatCalls.all
        (fun e => decide ((e.2 : Int) < md)) = true) := by
  have hinit : depthInv md (initState start) := by
    constructor
    · intro e he
      simp [initState] at he
      subst he
      push_cast
      omega
    · intro e he
      simp [initState] at he
  obtain ⟨h1, h2⟩ := depthInv_run m md k (initState start) hinit
  constructor
  · exact List.all_eq_true.2 fun e he => decide_eq_true (h1 e he)
  · exact List.all_eq_true.2 fun e he => decide_eq_true (h2 e he)

/-- Witness for claim C6 at a concrete run. -/
theorem C6_witness :
    ((scanRun demoMembers 1 2 (initState "Root")).queue.all
        (fun e => decide ((e.2 : Int) ≤ 1 + 1)) = true)
    ∧ ((scanRun demoMembers 1 2 (initState "Root")).subcatCalls.all
        (fun e => decide ((e.2 : Int) < 1)) = true) :=
  C6 demoMembers 1 "Root" 2 (by decide)

/-- Claim C10: with a negative `max_depth` the root entry is popped and
skipped at once, no member enumeration of any kind happens, and
`scan_categories` returns a pair of empty maps. -/
theorem C10 (m : String → String → List String) (start : String)
    (fuel : Nat) (md : Int) (h : md < 0) :
    scan_categories m start md fuel = ([], [])
    ∧ (scanRun m md fuel (initState start)).subcatCalls = []
    ∧ (scanRun m md fuel (initState start)).fileCalls = [] := by
  cases fuel with
  | zero => exact ⟨rfl, rfl, rfl⟩
  | succ f =>
    have h0 : scanStep m md (initState start) = { initState start with queue := [] } := by
      rw [scanStep_cons m md (initState start) start 0 [] rfl]
      exact scanPop_skip m md (initState start) start 0 [] (Or.inr (by omega))
    have hfix : scanRun m md f { initState start with queue := [] }
        = { initState start with queue := [] } :=
      scanRun_fix m md f _ rfl
    constructor
    · unfold scan_categories
      rw [scanRun_succ, h0, hfix]
      rfl
    · rw [scanRun_succ, h0, hfix]
      exact ⟨rfl, rfl⟩

/-- Witness for claim C10 at a concrete run. -/
theorem C10_witness :
    scan_categories demoMembers "Root" (-1) 3 = ([], [])
    ∧ (scanRun demoMembers (-1) 3 (initState "Root")).subcatCalls = []
    ∧ (scanRun demoMembers (-1) 3 (initState "Root")).fileCalls = [] :=
  C10 demoMembers "Root" 3 (-1) (by decide)

theorem range_flatMap_succ {α : Type} (f : Nat → List α) (k : Nat) :
    (List.range (k + 1)).flatMap f
      = f 0 ++ (List.range k).flatMap (fun i => f (i + 1)) := by
  induction k with
  | zero => simp [List.range_succ]
  | succ k ih =>
    rw [List.range_succ, List.flatMap_append, ih, List.range_succ,
      List.flatMap_append, List.append_assoc]
    simp

/-- Run of the pagination loop from page `p`: when the pages
`p, …, p + k - 1` parse with nonempty continuation tokens and page
`p + k` exhausts its five attempts, the loop returns the accumulator
extended by exactly those `k` pages. -/
theorem getCMAux_run (world : Nat → Nat → AttemptResult)
    (pages : Nat → List String) (conts : Nat → String) :
    ∀ (k p : Nat) (acc : List String) (fuel : Nat), k < fuel →
    (∀ i, i < k → (retryMeta (world (p + i)) 0 5).1
        = PageOutcome.success (pages (p + i)) (conts (p + i))) →
    (∀ i, i < k → conts (p + i) ≠ "") →
    (retryMeta (world (p + k)) 0 5).1 = PageOutcome.aborted →
    getCMAux world 5 p acc fuel
      = acc ++ (List.range k).flatMap (fun i => pages (p + i)) := by
  intro k
  induction k with
  | zero =>
    intro p acc fuel hf _ _ ha
    cases fuel with
    | zero => omega
    | succ f =>
      have ha' : (retryMeta (world p) 0 5).1 = PageOutcome.aborted := by
        simpa using ha
      simp [getCMAux, ha']
  | succ k ih =>
    intro p acc fuel hf hs hc ha
    cases fuel with
    | zero => omega
    | succ f =>
      have h0 : (retryMeta (world p) 0 5).1
          = PageOutcome.success (pages p) (conts p) := by
        simpa using hs 0 (by omega)
      have hc0 : ¬(conts p = "") := by simpa using hc 0 (by omega)
      have harith : ∀ i : Nat, p + 1 + i = p + (i + 1) := by omega
      have hrec := ih (p + 1) (acc ++ pages p) f (by omega)
        (fun i hi => by rw [harith i]; exact hs (i + 1) (by omega))
        (fun i hi => by rw [harith i]; exact hc (i + 1) (by omega))
        (by rw [harith k]; exact (by simpa [Nat.add_comm 1 k] using ha))
      simp only [getCMAux, h0, if_neg hc0]
      rw [hrec, range_flatMap_succ, List.append_assoc]
      have hfun : (fun i => pages (p + 1 + i)) = fun i => pages (p + (i + 1)) := by
        funext i
        rw [harith i]
      rw [hfun]
      simp

/-- Claim C2: when the first `k` metadata pages parse with nonempty
continuation tokens and page `k`'s request exhausts all five attempts
(by consecutive exceptions or by rate limiting), the Category
Enumerator returns exactly the members accumulated from the pages
fetched before the failing call — possibly the empty sequence — and
returns normally rather than raising. -/
theorem C2 (world : Nat → Nat → AttemptResult) (k fuel : Nat)
    (pages : Nat → List String) (conts : Nat → String)
    (hfuel : k < fuel)
    (hsucc : ∀ i, i < k → (retryMeta (world i) 0 5).1
        = PageOutcome.success (pages i) (conts i))
    (hcont : ∀ i, i < k → conts i ≠ "")
    (habort : (retryMeta (world k) 0 5).1 = PageOutcome.aborted) :
    get_category_members world 5 fuel = (List.range k).flatMap pages := by
  have h := getCMAux_run world pages conts k 0 [] fuel hfuel
    (fun i hi => by simpa using hsucc i hi)
    (fun i hi => by simpa using hcont i hi)
    (by simpa using habort)
  simpa using h

/-- A metadata world whose page 0 succeeds at once with a nonempty
continuation token and whose page 1 always raises. -/
def metaWorld2 : Nat → Nat → AttemptResult := fun page _ =>
  if page = 0 then AttemptResult.ok ["File:a.jpg"] "tok" else AttemptResult.netFail

/-- Witness for claim C2 at a concrete world. -/
theorem C2_witness :
    get_category_members metaWorld2 5 2
      = (List.range 1).flatMap (fun _ => ["File:a.jpg"]) :=
  C2 metaWorld2 1 2 (fun _ => ["File:a.jpg"]) (fun _ => "tok") (by omega)
    (fun i hi => by
      have h : i = 0 := by omega
      subst h
      decide)
    (fun i hi => by
      have h : i = 0 := by omega
      subst h
      decide)
    (by decide)

/-- Claim C4: with `k` rate-limit responses followed by a success
within the five-attempt cap, both retry loops return the successful
result and the backoff waits consumed are exactly the first `k` items
of the schedule — `2 ^ attempt` (1, 2, 4, 8, 16) for metadata and
`2 ^ (attempt + 2)` (4, 8, 16, 32, 64) for file downloads. -/
theorem C4 (k : Nat) (hk : k < 5) (ms : List String) (c body : String) :
    retryMeta (fun i => if i < k then AttemptResult.rateLimited
        else AttemptResult.ok ms c) 0 5
      = (PageOutcome.success ms c, (List.range k).map (fun i => 2 ^ i))
    ∧ retryFile (fun i => if i < k then FetchResult.rateLimited
        else FetchResult.ok body) 0 5
      = (FileOutcome.downloaded body, (List.range k).map (fun i => 2 ^ (i + 2))) := by
  interval_cases k <;> exact ⟨rfl, rfl⟩

/-- Witness for claim C4 with three rate limits before success. -/
theorem C4_witness :
    retryMeta (fun i => if i < 3 then AttemptResult.rateLimited
        else AttemptResult.ok ["File:w.jpg"] "") 0 5
      = (PageOutcome.success ["File:w.jpg"] "", [1, 2, 4])
    ∧ retryFile (fun i => if i < 3 then FetchResult.rateLimited
        else FetchResult.ok "body") 0 5
      = (FileOutcome.downloaded "body", [4, 8, 16]) :=
  C4 3 (by omega) ["File:w.jpg"] "" "body"

/-- Claim C8: the downloader's naming pipeline first strips the
`File:` marker and then replaces every invalid character by an
underscore, leaving other characters untouched; in particular
`File:Sunset Over Bay.JPG` yields `Sunset Over Bay.JPG` unchanged and
`File:Weird?Name.png` yields `Weird_Name.png`. -/
theorem C8 (t : String) :
    (dlName t).data
        = (removeStart t "File:").data.map (fun c => if invalidChar c then '_' else c)
    ∧ (∀ c ∈ (dlName t).data, invalidChar c = false)
    ∧ dlName "File:Sunset Over Bay.JPG" = "Sunset Over Bay.JPG"
    ∧ dlName "File:Weird?Name.png" = "Weird_Name.png" := by
  refine ⟨rfl, ?_, by decide, by decide⟩
  intro c hc
  simp only [dlName, sanitize_filename, List.mem_map] at hc
  obtain ⟨a, _, rfl⟩ := hc
  by_cases h : invalidChar a
  · rw [if_pos h]
    decide
  · rw [if_neg h]
    exact Bool.not_eq_true _ ▸ (by simpa using h)

/-- Witness for claim C8 at a concrete title. -/
theorem C8_witness :
    dlName "File:Sunset Over Bay.JPG" = "Sunset Over Bay.JPG"
    ∧ dlName "File:Weird?Name.png" = "Weird_Name.png" :=
  ⟨(C8 "File:Sunset Over Bay.JPG").2.2.1, (C8 "File:Weird?Name.png").2.2.2⟩

theorem runEntries_cons (o : String → Nat → FetchResult) (s : DlState)
    (e : String × String) (es : List (String × String)) :
    runEntries o s (e :: es) = runEntries o (processEntry o s e) es := rfl

theorem disk_mono (o : String → Nat → FetchResult) (s : DlState)
    (e : String × String) : s.disk ⊆ (processEntry o s e).disk := by
  unfold processEntry
  split
  · exact fun x hx => hx
  · split
    · exact fun x hx => List.mem_cons_of_mem _ hx
    · exact fun x hx => hx
    · exact fun x hx => hx

theorem error_mono (o : String → Nat → FetchResult) (s : DlState)
    (e : String × String) : s.error ≤ (processEntry o s e).error := by
  unfold processEntry
  split
  · exact Nat.le_refl _
  · split
    · exact Nat.le_refl _
    · exact Nat.le_succ _
    · exact Nat.le_refl _

theorem runEntries_disk_mono (o : String → Nat → FetchResult)
    (es : List (String × String)) :
    ∀ s : DlState, s.disk ⊆ (runEntries o s es).disk := by
  induction es with
  | nil => exact fun _ x hx => hx
  | cons e es ih =>
    exact fun s x hx => ih (processEntry o s e) (disk_mono o s e hx)

theorem runEntries_error_mono (o : String → Nat → FetchResult)
    (es : List (String × String)) :
    ∀ s : DlState, s.error ≤ (runEntries o s es).error := by
  induction es with
  | nil => exact fun _ => Nat.le_refl _
  | cons e es ih =>
    exact fun s => Nat.le_trans (error_mono o s e) (ih (processEntry o s e))

/-- When a run over `es` from state `s` records no new error, every
entry either was skipped, was written to disk, or exhausted its five
attempts by rate limiting; re-running the same entries from any state
whose disk contains the run's final disk changes nothing. -/
theorem rerun_fixed (o : String → Nat → FetchResult) :
    ∀ (es : List (String × String)) (s : DlState),
      (runEntries o s es).error = s.error →
      ∀ (D : List String) (dc ec : Nat), (runEntries o s es).disk ⊆ D →
        runEntries o ⟨D, dc, ec⟩ es = ⟨D, dc, ec⟩ := by
  intro es
  induction es with
  | nil => intro s _ D dc ec _; rfl
  | cons e es ih =>
    intro s herr D dc ec hsub
    rw [runEntries_cons] at herr hsub
    have he1 : (processEntry o s e).error = s.error := by
      have h1 := error_mono o s e
      have h2 := runEntries_error_mono o es (processEntry o s e)
      omega
    by_cases hm : dlName e.2 ∈ s.disk
    · have hP : processEntry o s e = s := by
        unfold processEntry
        rw [if_pos hm]
      have hmD : dlName e.2 ∈ D :=
        hsub (runEntries_disk_mono o es (processEntry o s e) (disk_mono o s e hm))
      have hP2 : processEntry o ⟨D, dc, ec⟩ e = ⟨D, dc, ec⟩ := by
        unfold processEntry
        rw [if_pos hmD]
      rw [runEntries_cons, hP2]
      rw [hP] at herr hsub
      exact ih s herr D dc ec hsub
    · cases hR : (retryFile (o (removeStart e.2 "File:")) 0 5).1 with
      | downloaded cbody =>
        have hP : processEntry o s e
            = { s with disk := dlName e.2 :: s.disk,
                       downloaded := s.downloaded + 1 } := by
          unfold processEntry
          rw [if_neg hm, hR]
        have hmD : dlName e.2 ∈ D := by
          refine hsub (runEntries_disk_mono o es (processEntry o s e) ?_)
          rw [hP]
          exact List.mem_cons_self _ _
        have hP2 : processEntry o ⟨D, dc, ec⟩ e = ⟨D, dc, ec⟩ := by
          unfold processEntry
          rw [if_pos hmD]
        rw [runEntries_cons, hP2]
        exact ih (processEntry o s e) (by rw [he1]; exact herr) D dc ec hsub
      | errored =>
        exfalso
        have hP : processEntry o s e = { s with error := s.error + 1 } := by
          unfold processEntry
          rw [if_neg hm, hR]
        rw [hP] at he1
        exact Nat.succ_ne_self s.error he1
      | exhausted429 =>
        have hP : processEntry o s e = s := by
          unfold processEntry
          rw [if_neg hm, hR]
        rw [hP] at herr hsub
        by_cases hmD : dlName e.2 ∈ D
        · have hP2 : processEntry o ⟨D, dc, ec⟩ e = ⟨D, dc, ec⟩ := by
            unfold processEntry
            rw [if_pos hmD]
          rw [runEntries_cons, hP2]
          exact ih s herr D dc ec hsub
        · have hP2 : processEntry o ⟨D, dc, ec⟩ e = ⟨D, dc, ec⟩ := by
            unfold processEntry
            rw [if_neg hmD, hR]
          rw [runEntries_cons, hP2]
          exact ih s herr D dc ec hsub

/-- Claim C3, counterexample: a file whose five attempts are all rate
limited has its retries exhausted, yet `download_files` increments
neither counter — the result is `(0, 0)`, not an error count of one. -/
theorem C3_counterexample :
    (retryFile (rlWorld "A.jpg") 0 5).1 = FileOutcome.exhausted429
    ∧ download_files rlWorld [] [(0, "Cat", "File:A.jpg")] 0 = (0, 0) :=
  ⟨by decide, by decide⟩

/-- Claim C3, amended: when a file entry not yet on disk reaches the
final-attempt exception branch (a request failure on the fifth
attempt), the error counter is incremented by exactly one, nothing else
changes, and iteration continues with the remaining entries; however,
when the fifth attempt is rate limited the loop exits without touching
either counter.  `download_files` returns the final counter pair and
never raises on an individual file. -/
theorem C3_amended (oracle : String → Nat → FetchResult) (s : DlState)
    (cat t : String) (es : List (String × String))
    (hn : dlName t ∉ s.disk)
    (he : (retryFile (oracle (removeStart t "File:")) 0 5).1
        = FileOutcome.errored) :
    processEntry oracle s (cat, t) = { s with error := s.error + 1 }
    ∧ runEntries oracle s ((cat, t) :: es)
        = runEntries oracle { s with error := s.error + 1 } es := by
  have hP : processEntry oracle s (cat, t) = { s with error := s.error + 1 } := by
    unfold processEntry
    rw [if_neg hn, he]
  exact ⟨hP, by rw [runEntries_cons, hP]⟩

/-- Witness for the amended claim C3 at a concrete world. -/
theorem C3_witness :
    processEntry failWorld ⟨[], 0, 0⟩ ("Cat", "File:A.jpg") = ⟨[], 0, 1⟩
    ∧ runEntries failWorld ⟨[], 0, 0⟩ [("Cat", "File:A.jpg")]
        = runEntries failWorld ⟨[], 0, 1⟩ [] :=
  C3_amended failWorld ⟨[], 0, 0⟩ "Cat" "File:A.jpg" [] (by decide) (by decide)

/-- Claim C9, counterexample: with a file whose fetch always fails, the
first run returns `(0, 1)` and leaves the file absent, so a second run
over the same bucket from the resulting directory returns `(0, 1)`
again, not `(0, 0)`. -/
theorem C9_counterexample :
    download_files failWorld [] [(0, "Cat", "File:A.jpg")] 0 = (0, 1)
    ∧ download_files failWorld
        (download_run failWorld [] [(0, "Cat", "File:A.jpg")] 0).disk
        [(0, "Cat", "File:A.jpg")] 0 = (0, 1) :=
  ⟨by decide, by decide⟩

/-- Claim C9, amended: an entry whose sanitized name is already on disk
is skipped, incrementing neither counter; and when a first run of
`download_files` records zero errors, re-running it over the same
bucket from the directory the first run produced yields `(0, 0)`. -/
theorem C9_amended (oracle : String → Nat → FetchResult) (disk0 : List String)
    (files : FilesMap) (maxDl : Int) (s : DlState) (e : String × String)
    (hskip : dlName e.2 ∈ s.disk)
    (h0 : (download_run oracle disk0 files maxDl).error = 0) :
    processEntry oracle s e = s
    ∧ download_files oracle (download_run oracle disk0 files maxDl).disk
        files maxDl = (0, 0) := by
  constructor
  · unfold processEntry
    rw [if_pos hskip]
  · exact congrArg (fun st : DlState => (st.downloaded, st.error))
      (rerun_fixed oracle (entriesUpTo files maxDl) ⟨disk0, 0, 0⟩ h0
        (download_run oracle disk0 files maxDl).disk 0 0 (fun _ hx => hx))

/-- Witness for the amended claim C9 at a concrete world. -/
theorem C9_witness :
    processEntry okWorld ⟨["A.jpg"], 0, 0⟩ ("Cat", "File:A.jpg")
      = ⟨["A.jpg"], 0, 0⟩
    ∧ download_files okWorld
        (download_run okWorld [] [(0, "Cat", "File:A.jpg")] 0).disk
        [(0, "Cat", "File:A.jpg")] 0 = (0, 0) :=
  C9_amended okWorld [] [(0, "Cat", "File:A.jpg")] 0 ⟨["A.jpg"], 0, 0⟩
    ("Cat", "File:A.jpg") (by decide) (by decide)

theorem summaryLoop_depths (fs : FilesMap) (cs : CatsMap) :
    ∀ (ds : List Nat) (cum tot : Nat),
      (summaryLoop fs cs ds cum tot).1.map (fun r => r.1) = ds := by
  intro ds
  induction ds with
  | nil => intro cum tot; rfl
  | cons d ds ih =>
    intro cum tot
    simp [summaryLoop, ih]

theorem summaryLoop_total (fs : FilesMap) (cs : CatsMap) :
    ∀ (ds : List Nat) (cum tot : Nat),
      (summaryLoop fs cs ds cum tot).2
        = tot + (ds.map (fun d => (bucket fs d).length)).sum := by
  intro ds
  induction ds with
  | nil => intro cum tot; simp [summaryLoop]
  | cons d ds ih =>
    intro cum tot
    simp only [summaryLoop, ih, List.map_cons, List.sum_cons]
    omega

theorem summaryLoop_cum (fs : FilesMap) (cs : CatsMap) :
    ∀ (n j cum tot : Nat),
      cum = ∑ i in Finset.range j, (bucket fs i).length →
      ∀ r ∈ (summaryLoop fs cs (List.range' j n) cum tot).1,
        r.2.2.2 = ∑ i in Finset.range (r.1 + 1), (bucket fs i).length := by
  intro n
  induction n with
  | zero =>
    intro j cum tot _ r hr
    simp [List.range', summaryLoop] at hr
  | succ n ih =>
    intro j cum tot hcum r hr
    have hr' : r = (j, catCount cs j, (bucket fs j).length,
          cum + (bucket fs j).length)
        ∨ r ∈ (summaryLoop fs cs (List.range' (j + 1) n)
          (cum + (bucket fs j).length) (tot + (bucket fs j).length)).1 := by
      simpa [List.range', summaryLoop] using hr
    rcases hr' with rfl | hr'
    · show cum + (bucket fs j).length = _
      rw [hcum, ← Finset.sum_range_succ]
    · exact ih (j + 1) (cum + (bucket fs j).length)
        (tot + (bucket fs j).length)
        (by rw [hcum, Finset.sum_range_succ]) r hr'

theorem mem_le_foldr_max : ∀ (l : List Nat) (x : Nat), x ∈ l → x ≤ l.foldr max 0 := by
  intro l
  induction l with
  | nil => intro x hx; cases hx
  | cons a l ih =>
    intro x hx
    rw [List.mem_cons] at hx
    rcases hx with rfl | hx
    · exact le_max_left _ _
    · exact le_trans (ih x hx) (le_max_right _ _)

theorem key_lt_summaryMax (fs : FilesMap) (cs : CatsMap) :
    ∀ e ∈ fs, e.1 < summaryMax fs cs + 1 := by
  intro e he
  have h1 : e.1 ∈ fileKeys fs ++ catKeys cs :=
    List.mem_append_left _ (List.mem_dedup.2 (List.mem_map_of_mem _ he))
  exact Nat.lt_succ_of_le (mem_le_foldr_max _ _ h1)

theorem sum_map_zero (l : List Nat) : (l.map (fun _ => 0)).sum = 0 := by
  induction l with
  | nil => rfl
  | cons a l ih => simp [ih]

theorem sum_map_split (l : List Nat) (f g : Nat → Nat) :
    (l.map (fun d => f d + g d)).sum = (l.map f).sum + (l.map g).sum := by
  induction l with
  | nil => rfl
  | cons a l ih =>
    simp only [List.map_cons, List.sum_cons, ih]
    omega

theorem sum_indicator_not_mem (m : Nat) :
    ∀ (l : List Nat), m ∉ l →
      (l.map (fun d => if m = d then 1 else 0)).sum = 0 := by
  intro l
  induction l with
  | nil => intro _; rfl
  | cons a l ih =>
    intro h
    have h1 : ¬(m = a) := fun hc => h (hc ▸ List.mem_cons_self a l)
    have h2 : m ∉ l := fun hc => h (List.mem_cons_of_mem _ hc)
    simp [h1, ih h2]

theorem sum_indicator_range (m : Nat) :
    ∀ (n : Nat), m < n →
      ((List.range n).map (fun d => if m = d then 1 else 0)).sum = 1 := by
  intro n
  induction n with
  | zero => omega
  | succ n ih =>
    intro h
    rw [List.range_succ, List.map_append, List.sum_append]
    by_cases hm : m = n
    · subst hm
      rw [sum_indicator_not_mem m (List.range m) (by simp [List.mem_range])]
      simp
    · rw [ih (by omega)]
      simp [hm]

theorem bucket_length_cons (a : Nat × String × String) (fs : FilesMap) (d : Nat) :
    (bucket (a :: fs) d).length
      = (if a.1 = d then 1 else 0) + (bucket fs d).length := by
  unfold bucket
  rw [List.filter_cons]
  by_cases h : a.1 = d
  · simp [h]
    omega
  · simp [h]

theorem bucket_total (fs : FilesMap) :
    ∀ (n : Nat), (∀ e ∈ fs, e.1 < n) →
      ((List.range n).map (fun d => (bucket fs d).length)).sum = fs.length := by
  induction fs with
  | nil => intro n _; exact sum_map_zero (List.range n)
  | cons a fs ih =>
    intro n h
    have hfun : (fun d => (bucket (a :: fs) d).length)
        = fun d => (if a.1 = d then 1 else 0) + (bucket fs d).length := by
      funext d
      exact bucket_length_cons a fs d
    rw [hfun, sum_map_split,
      sum_indicator_range a.1 n (h a (List.mem_cons_self a fs)),
      ih n (fun e he => h e (List.mem_cons_of_mem a he))]
    simp [List.length_cons]
    omega

/-- Claim C7: the Summary Reporter's rows cover depths `0` through the
maximum depth present in either map, in increasing order; the
cumulative column of the row of depth `D` equals the sum of the
file-bucket sizes for depths `0 .. D`; and the returned total equals
the number of file entries over all depths. -/
theorem C7 (fs : FilesMap) (cs : CatsMap) :
    (print_summary fs cs).1.map (fun r => r.1)
        = List.range (summaryMax fs cs + 1)
    ∧ (∀ r ∈ (print_summary fs cs).1,
        r.2.2.2 = ∑ i in Finset.range (r.1 + 1), (bucket fs i).length)
    ∧ (print_summary fs cs).2 = fs.length := by
  refine ⟨summaryLoop_depths fs cs _ 0 0, ?_, ?_⟩
  · intro r hr
    have hr' : r ∈ (summaryLoop fs cs
        (List.range' 0 (summaryMax fs cs + 1)) 0 0).1 := by
      rw [← List.range_eq_range']
      exact hr
    exact summaryLoop_cum fs cs (summaryMax fs cs + 1) 0 0 0 (by simp) r hr'
  · show (summaryLoop fs cs (List.range (summaryMax fs cs + 1)) 0 0).2 = fs.length
    rw [summaryLoop_total, Nat.zero_add]
    exact bucket_total fs (summaryMax fs cs + 1) (key_lt_summaryMax fs cs)

/-- Witness for claim C7 at a concrete pair of maps. -/
theorem C7_witness :
    (print_summary [(0, "C", "File:a.jpg"), (2, "C", "File:b.png")] [0, 1, 2]).2
      = 2 :=
  (C7 [(0, "C", "File:a.jpg"), (2, "C", "File:b.png")] [0, 1, 2]).2.2

end WC
